import Mathlib

/-!
Verification development for the latex-comparison server (`src/app.py`).

The `/compare` endpoint parses each LaTeX string with sympy's `parse_latex`,
serializes the resulting tree with `sympy_to_custom`, and scores the two
resulting token sequences with `difflib.SequenceMatcher(None, s1, s2).ratio()`
from the CPython 3.11 standard library.  The scorer is embedded here verbatim
from `difflib.py` (with `isjunk = None` and the default `autojunk = True`, as
the application calls it); the external parser/serializer pipeline is an
abstract oracle (`PipeResult`), since `parse_latex` is an external collaborator
and `latex_to_maxim.sympy_to_custom` is not part of the repository sources.

Machine reals (`float`) are modelled by `ℚ`: every quantity the claims touch
(`2.0 * matches / length`, comparisons with `1.0`/`0.0`, two-decimal
formatting) is exactly representable or rounds identically at the values
considered.

All recursion is structural (loops that Python bounds by a decreasing index
are given an explicit fuel argument equal to that index), so every definition
evaluates inside the kernel.
-/

set_option autoImplicit false
set_option maxRecDepth 10000

namespace LatexCmp

/-! ### difflib.SequenceMatcher, `isjunk = None`, `autojunk = True` -/

/-- A matching block, difflib's `Match(a, b, size)` named triple. -/
structure MatchBlock where
  a : ℕ
  b : ℕ
  size : ℕ
  deriving DecidableEq, Repr

variable {α : Type} [DecidableEq α] [Inhabited α]

/-- Sequence indexing `s[i]`.  All reachable accesses in the algorithm are in
bounds; out-of-bounds reads return `default` (Python would raise, but no
reachable state does). -/
def idx (s : List α) (i : ℕ) : α := s.getD i default

/-- The ascending list of indices at which `x` occurs in `b` (the entry
`b2j[x]` of difflib's `__chain_b` before the autojunk purge). -/
def positions (b : List α) (x : α) : List ℕ :=
  (List.range b.length).filter fun j => decide (idx b j = x)

/-- `__chain_b`: occurrence lists, with "popular" entries deleted when
`autojunk` applies (`len(b) >= 200` and the element accounts for more than
`len(b) // 100 + 1` occurrences).  `isjunk` is `None` in `app.py`, so the
junk purge is empty.  A missing dict entry is the empty list (`nothing`). -/
def b2j (b : List α) (x : α) : List ℕ :=
  if 200 ≤ b.length ∧ b.length / 100 + 1 < (positions b x).length then []
  else positions b x

/-- `bjunk.__contains__`: `isjunk` is `None`, so the junk set is empty. -/
def bjunkNone (_ : α) : Bool := false

/-- `newj2len[j] = j2len.get(j-1, 0) + 1`.  Python's `j - 1` is `-1` when
`j = 0` and the `.get` default `0` applies; stored chain values are always
positive, so representing the dict as a total function defaulting to `0` is
exact. -/
def chainK (old : ℕ → ℕ) (j : ℕ) : ℕ := (if j = 0 then 0 else old (j - 1)) + 1

/-- `if k > bestsize: besti, bestj, bestsize = i-k+1, j-k+1, k`. -/
def bestUpd (i j k : ℕ) (best : MatchBlock) : MatchBlock :=
  if best.size < k then ⟨i + 1 - k, j + 1 - k, k⟩ else best

/-- The inner `for j in b2j.get(a[i], nothing)` loop of `find_longest_match`:
`continue` on `j < blo`, `break` on `j >= bhi`, otherwise record the new chain
length and possibly update the best block. -/
def innerJ (blo bhi i : ℕ) (old : ℕ → ℕ) :
    List ℕ → (ℕ → ℕ) → MatchBlock → ((ℕ → ℕ) × MatchBlock)
  | [], new, best => (new, best)
  | j :: js, new, best =>
    if j < blo then innerJ blo bhi i old js new best
    else if bhi ≤ j then (new, best)
    else
      innerJ blo bhi i old js
        (fun q => if q = j then chainK old j else new q)
        (bestUpd i j (chainK old j) best)

/-- The outer `for i in range(alo, ahi)` loop of `find_longest_match`,
written with an explicit iteration count `n = ahi - alo` and current index
`i`.  Each iteration starts a fresh `newj2len` (the constant-`0` map). -/
def dictLoop (a b : List α) (blo bhi : ℕ) : ℕ → ℕ → (ℕ → ℕ) → MatchBlock → MatchBlock
  | _, 0, _, best => best
  | i, n + 1, j2len, best =>
    let p := innerJ blo bhi i j2len (b2j b (idx a i)) (fun _ => 0) best
    dictLoop a b blo bhi (i + 1) n p.1 p.2

/-- First extension loop: extend the best block with non-junk elements on the
left.  `besti` strictly decreases each step, so `besti` itself is an exact
fuel (when fuel reaches `0`, `besti = 0` and the guard `alo < besti` fails
anyway). -/
def ext1 (a b : List α) (alo blo : ℕ) : ℕ → MatchBlock → MatchBlock
  | 0, st => st
  | f + 1, st =>
    if alo < st.a ∧ blo < st.b ∧ bjunkNone (idx b (st.b - 1)) = false ∧
        idx a (st.a - 1) = idx b (st.b - 1) then
      ext1 a b alo blo f ⟨st.a - 1, st.b - 1, st.size + 1⟩
    else st

/-- Second extension loop: extend with non-junk elements on the right.
`ahi - (besti + bestsize)` strictly decreases, so it is an exact fuel. -/
def ext2 (a b : List α) (ahi bhi : ℕ) : ℕ → MatchBlock → MatchBlock
  | 0, st => st
  | f + 1, st =>
    if st.a + st.size < ahi ∧ st.b + st.size < bhi ∧
        bjunkNone (idx b (st.b + st.size)) = false ∧
        idx a (st.a + st.size) = idx b (st.b + st.size) then
      ext2 a b ahi bhi f ⟨st.a, st.b, st.size + 1⟩
    else st

/-- Third extension loop: extend with junk elements on the left.  With
`isjunk = None` the junk test never succeeds and the loop is a no-op, but it
is embedded all the same. -/
def ext3 (a b : List α) (alo blo : ℕ) : ℕ → MatchBlock → MatchBlock
  | 0, st => st
  | f + 1, st =>
    if alo < st.a ∧ blo < st.b ∧ bjunkNone (idx b (st.b - 1)) = true ∧
        idx a (st.a - 1) = idx b (st.b - 1) then
      ext3 a b alo blo f ⟨st.a - 1, st.b - 1, st.size + 1⟩
    else st

/-- Fourth extension loop: extend with junk elements on the right; a no-op
for the same reason as `ext3`. -/
def ext4 (a b : List α) (ahi bhi : ℕ) : ℕ → MatchBlock → MatchBlock
  | 0, st => st
  | f + 1, st =>
    if st.a + st.size < ahi ∧ st.b + st.size < bhi ∧
        bjunkNone (idx b (st.b + st.size)) = true ∧
        idx a (st.a + st.size) = idx b (st.b + st.size) then
      ext4 a b ahi bhi f ⟨st.a, st.b, st.size + 1⟩
    else st

/-- `SequenceMatcher.find_longest_match(alo, ahi, blo, bhi)`: the `j2len`
dictionary phase starting from `besti, bestj, bestsize = alo, blo, 0`,
followed by the four extension loops. -/
def findLongestMatch (a b : List α) (alo ahi blo bhi : ℕ) : MatchBlock :=
  let b0 := dictLoop a b blo bhi alo (ahi - alo) (fun _ => 0) ⟨alo, blo, 0⟩
  let b1 := ext1 a b alo blo b0.a b0
  let b2 := ext2 a b ahi bhi (ahi - (b1.a + b1.size)) b1
  let b3 := ext3 a b alo blo b2.a b2
  ext4 a b ahi bhi (ahi - (b3.a + b3.size)) b3

/-- The recursive block collection of `get_matching_blocks` (the source
maintains an explicit LIFO queue purely to avoid Python's recursion limit;
the resulting multiset of blocks is that of the recursion tree, and the
source sorts it afterwards).  The fuel `ahi - alo` dominates the recursion
depth because each returned nonempty block satisfies
`alo <= i` and `i + k <= ahi` (`findLongestMatch_sound` below). -/
def blocksFuel (a b : List α) : ℕ → ℕ → ℕ → ℕ → ℕ → List MatchBlock
  | 0, _, _, _, _ => []
  | f + 1, alo, ahi, blo, bhi =>
    let m := findLongestMatch a b alo ahi blo bhi
    if m.size = 0 then []
    else
      (if alo < m.a ∧ blo < m.b then blocksFuel a b f alo m.a blo m.b else []) ++
        ([m] ++
          (if m.a + m.size < ahi ∧ m.b + m.size < bhi then
            blocksFuel a b f (m.a + m.size) ahi (m.b + m.size) bhi
          else []))

/-- All matching blocks of the full sequences, in recursion-tree order. -/
def rawBlocks (a b : List α) : List MatchBlock :=
  blocksFuel a b a.length 0 a.length 0 b.length

/-- Python sorts the collected `Match` triples as tuples, i.e.
lexicographically on `(a, b, size)`. -/
def lexLe (x y : MatchBlock) : Prop :=
  x.a < y.a ∨ (x.a = y.a ∧ (x.b < y.b ∨ (x.b = y.b ∧ x.size ≤ y.size)))

instance : DecidableRel lexLe := fun x y => by unfold lexLe; infer_instance

/-- The adjacent-block collapsing loop at the end of `get_matching_blocks`
(state `i1, j1, k1`, starting from `0, 0, 0`; a finished group is emitted
only when `k1` is nonzero). -/
def nonAdjacent : List MatchBlock → ℕ → ℕ → ℕ → List MatchBlock
  | [], i1, j1, k1 => if k1 ≠ 0 then [⟨i1, j1, k1⟩] else []
  | x :: rest, i1, j1, k1 =>
    if i1 + k1 = x.a ∧ j1 + k1 = x.b then nonAdjacent rest i1 j1 (k1 + x.size)
    else (if k1 ≠ 0 then [⟨i1, j1, k1⟩] else []) ++ nonAdjacent rest x.a x.b x.size

/-- `get_matching_blocks`: sort, collapse adjacent blocks, then append the
terminating dummy `(la, lb, 0)`. -/
def getMatchingBlocks (a b : List α) : List MatchBlock :=
  nonAdjacent (List.insertionSort lexLe (rawBlocks a b)) 0 0 0 ++
    [⟨a.length, b.length, 0⟩]

/-- difflib's `_calculate_ratio(matches, length)`: `2.0 * matches / length`
when `length` is nonzero, else `1.0`.  The float division of integers is the
exact fraction `(2 * matches) / length`, written with `Rat.divInt` (proved
equal to field division in `calculateRatioQ_eq_div` below). -/
def calculateRatioQ (matchCount total : ℕ) : ℚ :=
  if total ≠ 0 then Rat.divInt (2 * (matchCount : ℤ)) (total : ℤ) else 1

/-- `SequenceMatcher.ratio()`: the sum of the block sizes returned by
`get_matching_blocks`, normalised by the total length. -/
def ratioQ (a b : List α) : ℚ :=
  calculateRatioQ ((getMatchingBlocks a b).map MatchBlock.size).sum
    (a.length + b.length)

/-- The total matched length `M` as the plain recursive sum over the greedy
longest-matching-block decomposition (no sorting, collapsing or sentinel). -/
def matchesTotal (a b : List α) : ℕ := ((rawBlocks a b).map MatchBlock.size).sum

/-! ### Two-decimal percentage formatting

`app.py` renders `f"{similarity:.2f}%"` where `similarity = ratio * 100` is a
machine float.  Python's fixed-point formatting rounds half-to-even; on the
exact rationals considered in the claims this agrees with rounding the real
value, which is what is modelled here. -/

/-- Round the fraction `p / d` (`d > 0`) to the nearest integer, ties to even
(Python float formatting), using flooring division and remainder. -/
def roundHalfEvenInt (p d : ℤ) : ℤ :=
  let f := Int.fdiv p d
  let r := Int.fmod p d
  if 2 * r < d then f else if d < 2 * r then f + 1
  else if f % 2 = 0 then f else f + 1

/-- `f"{ratio * 100:.2f}%"`: the percentage `ratio * 100` rendered with two
decimals, i.e. the integer nearest to `ratio * 10000` (ties to even) split
into its integer and two-digit fractional part.  The scorer's ratios are
nonnegative, so the sign is dropped via `natAbs`. -/
def pyFormatPct (r : ℚ) : String :=
  let n := (roundHalfEvenInt (10000 * r.num) (r.den : ℤ)).natAbs
  toString (n / 100) ++ "." ++ (if n % 100 < 10 then "0" else "") ++
    toString (n % 100) ++ "%"

/-! ### The transport layer of `app.py`

The sympy pipeline `sympy_to_custom(parse_latex(s))` is abstracted as an
oracle `String → PipeResult`: it either returns the serialized token string
(a `List Char`, compared character-wise by `SequenceMatcher`) or raises.
`ValueError` and sympy's `LaTeXParsingError` (a direct `Exception` subclass,
*not* a `ValueError`) are distinguished because `app.py`'s handler
`except ValueError or LaTeXParsingError` evaluates its clause first:
`ValueError or LaTeXParsingError` is the truthy class `ValueError`, so the
clause catches exactly `ValueError`; everything else reaches the enclosing
`except Exception`. -/

/-- Outcome of `sympy_to_custom(parse_latex(s))`. -/
inductive PipeResult where
  /-- The pipeline returned this token string. -/
  | ok (tokens : List Char)
  /-- A `ValueError` was raised (value-invalid input). -/
  | valueError (msg : String)
  /-- A `LaTeXParsingError` was raised (syntax-invalid input). -/
  | parsingError (msg : String)
  /-- Any other exception. -/
  | otherError (msg : String)
  deriving DecidableEq, Repr

/-- A JSON response body. -/
inductive Body where
  /-- `{"error": msg}`. -/
  | error (msg : String)
  /-- `{"similarity": val}`. -/
  | similarity (val : String)
  /-- `{"formulas": fs}`. -/
  | formulas (fs : List String)
  /-- `{"latex_operations": ops}`. -/
  | latexOperations (ops : List String)
  /-- No body produced by the handler itself: an exception escaped the
  handler uncaught and the transport layer produced its generic 500
  response.  In `app.py` this happens only on the `file.save` call, which
  sits outside every `try` block. -/
  | uncaught (msg : String)
  deriving DecidableEq, Repr

/-- `Compare.post`.  The request body is `none` for a missing/null JSON
payload and `some assoc` for a JSON object (an empty object is falsy, tripping
`not data`).  Field values are looked up as in `data["latex1"]`.  The two
inner `except ValueError` clauses catch only `valueError`; `parsingError` and
`otherError` propagate to the outer `except Exception` giving an untagged 500.
A plain `return` in flask-restx is status 200. -/
def comparePost (body : Option (List (String × String)))
    (pipeline : String → PipeResult) : ℕ × Body :=
  match body with
  | none => (400, .error "Missing LaTeX strings")
  | some data =>
    if data = [] then (400, .error "Missing LaTeX strings")
    else
      match data.lookup "latex1", data.lookup "latex2" with
      | none, _ => (400, .error "Missing LaTeX strings")
      | some _, none => (400, .error "Missing LaTeX strings")
      | some latex1, some latex2 =>
        match pipeline latex1 with
        | .valueError m => (409, .error ("latex1: " ++ m))
        | .parsingError m => (500, .error m)
        | .otherError m => (500, .error m)
        | .ok t1 =>
          match pipeline latex2 with
          | .valueError m => (409, .error ("latex2: " ++ m))
          | .parsingError m => (500, .error m)
          | .otherError m => (500, .error m)
          | .ok t2 => (200, .similarity (pyFormatPct (ratioQ t1 t2)))

/-- `Operations.get`: a constant body, no state consulted. -/
def operationsGet (_ : Unit) : ℕ × Body :=
  (200, .latexOperations
    ["frac", "+", "-", "*", "/", "^", "_", "sqrt", "sum", "int",
     "left", "right", "cdot", "times", "log"])

/-- Python `str.splitlines` line-boundary characters (`\n`, `\r`, `\v`, `\f`,
file/group/record separators, NEL, LINE SEPARATOR, PARAGRAPH SEPARATOR);
`\r\n` counts as a single boundary. -/
def isLineBreak (c : Char) : Bool :=
  c = '\n' ∨ c = '\r' ∨ c = Char.ofNat 0x0b ∨ c = Char.ofNat 0x0c ∨
    c = Char.ofNat 0x1c ∨ c = Char.ofNat 0x1d ∨ c = Char.ofNat 0x1e ∨
    c = Char.ofNat 0x85 ∨ c = Char.ofNat 0x2028 ∨ c = Char.ofNat 0x2029

/-- Worker for `pySplitlines`: a boundary always ends the current line; a
final unterminated segment is emitted only when nonempty. -/
def splitlinesAux : List Char → List Char → List String
  | [], cur => if cur = [] then [] else [String.mk cur]
  | '\r' :: '\n' :: rest, cur => String.mk cur :: splitlinesAux rest []
  | c :: rest, cur =>
    if isLineBreak c then String.mk cur :: splitlinesAux rest []
    else splitlinesAux rest (cur ++ [c])

/-- Python `text.splitlines()`. -/
def pySplitlines (text : String) : List String := splitlinesAux text.toList []

/-- The extraction loop of `PdfToLatex.post`: for each page text, extend the
accumulator with the lines containing a backslash (`"\\" in line` is
single-character containment). -/
def pdfExtract (pages : List String) : List String :=
  pages.foldl
    (fun acc text =>
      acc ++ (pySplitlines text).filter (fun l => l.toList.contains '\\')) []

/-- `PdfToLatex.post`.  The second component of the result records whether
the temporary file still exists when the handler exits.  `save` abstracts
`file.save(tmp_file.name)`: it runs *after* `NamedTemporaryFile(delete=False)`
has created the file and *outside* every `try` block, and there is no
`try/finally`, so if it raises the exception escapes the handler (the
transport layer answers its generic 500) and the temporary file is left on
disk.  `extract` abstracts `PdfReader(path).pages` with `page.extract_text()`
applied to each page (`Except.error` for any exception inside the `try`); on
those branches and on success `os.remove` runs before returning. -/
def pdfPost (file : Bool) (save : Except String Unit)
    (extract : Except String (List String)) : (ℕ × Body) × Bool :=
  if !file then ((400, .error "No file provided"), false)
  else
    match save with
    | .error m => ((500, .uncaught m), true)
    | .ok _ =>
      match extract with
      | .error m => ((500, .error m), false)
      | .ok pages => ((200, .formulas (pdfExtract pages)), false)

/-- `PixToTex.post`.  `save` abstracts the `file.save(tmp_file.name)` call
exactly as in `pdfPost`: unguarded, so a failure there leaks the temporary
file (second component `true`).  `ocr` abstracts `Image.open` +
`ocr_model(image)`; `pipeline` is the same sympy oracle as in `comparePost`,
but here *any* exception is caught (`except Exception`) and turned into a
409.  The validation value `converted` is discarded; only the raw OCR string
is returned.  On every branch after a successful save, `os.remove` runs
before returning. -/
def pixPost (file : Bool) (save : Except String Unit)
    (ocr : Except String String) (pipeline : String → PipeResult) :
    (ℕ × Body) × Bool :=
  if !file then ((400, .error "No file provided"), false)
  else
    match save with
    | .error m => ((500, .uncaught m), true)
    | .ok _ =>
      match ocr with
      | .error m => ((500, .error m), false)
      | .ok latexFormula =>
        match pipeline latexFormula with
        | .ok _ => ((200, .formulas [latexFormula]), false)
        | .valueError m =>
          ((409, .error ("couldn\x27t parse the string " ++ latexFormula ++ ", " ++ m)),
            false)
        | .parsingError m =>
          ((409, .error ("couldn\x27t parse the string " ++ latexFormula ++ ", " ++ m)),
            false)
        | .otherError m =>
          ((409, .error ("couldn\x27t parse the string " ++ latexFormula ++ ", " ++ m)),
            false)

/-! ### Sum bookkeeping: sorting, collapsing and the sentinel preserve the
total matched length -/

theorem nonAdjacent_sum :
    ∀ (l : List MatchBlock) (i1 j1 k1 : ℕ),
      ((nonAdjacent l i1 j1 k1).map MatchBlock.size).sum
        = k1 + (l.map MatchBlock.size).sum := by
  intro l
  induction l with
  | nil =>
    intro i1 j1 k1
    by_cases hk : k1 = 0 <;> simp [nonAdjacent, hk]
  | cons x rest ih =>
    intro i1 j1 k1
    rw [nonAdjacent]
    split_ifs with hadj hk
    · rw [ih]
      simp only [List.map_cons, List.sum_cons]
      omega
    · simp only [List.map_append, List.sum_append, List.map_cons, List.sum_cons,
        List.map_nil, List.sum_nil, ih]
      omega
    · rw [not_ne_iff] at hk
      subst hk
      simp only [List.nil_append, ih, List.map_cons, List.sum_cons]
      omega

theorem getMatchingBlocks_sum (a b : List α) :
    ((getMatchingBlocks a b).map MatchBlock.size).sum = matchesTotal a b := by
  have hperm : List.Perm (List.insertionSort lexLe (rawBlocks a b)) (rawBlocks a b) :=
    List.perm_insertionSort lexLe (rawBlocks a b)
  have hsum : ((List.insertionSort lexLe (rawBlocks a b)).map MatchBlock.size).sum
      = ((rawBlocks a b).map MatchBlock.size).sum :=
    (hperm.map MatchBlock.size).sum_eq
  unfold getMatchingBlocks matchesTotal
  rw [List.map_append, List.sum_append, nonAdjacent_sum]
  simp [hsum]

theorem calculateRatioQ_eq_div {m t : ℕ} (h : t ≠ 0) :
    calculateRatioQ m t = 2 * (m : ℚ) / (t : ℚ) := by
  unfold calculateRatioQ
  rw [if_pos h, Rat.divInt_eq_div]
  push_cast
  ring

/-! ### Degenerate sequences -/

theorem b2j_nil (x : α) : b2j ([] : List α) x = [] := by
  simp [b2j, positions]

theorem dictLoop_nil_b (a : List α) (blo bhi : ℕ) :
    ∀ (n i : ℕ) (j2 : ℕ → ℕ) (best : MatchBlock),
      dictLoop a [] blo bhi i n j2 best = best := by
  intro n
  induction n with
  | zero => intro i j2 best; rfl
  | succ n ih => intro i j2 best; simp [dictLoop, b2j_nil, innerJ, ih]

theorem ext1_stop {a b : List α} {alo blo : ℕ} {st : MatchBlock}
    (h : ¬ alo < st.a) : ∀ f, ext1 a b alo blo f st = st := by
  intro f
  cases f with
  | zero => rfl
  | succ f =>
    rw [ext1, if_neg]
    exact fun hc => h hc.1

theorem ext2_stop {a b : List α} {ahi bhi : ℕ} {st : MatchBlock}
    (h : ¬ st.b + st.size < bhi) : ∀ f, ext2 a b ahi bhi f st = st := by
  intro f
  cases f with
  | zero => rfl
  | succ f =>
    rw [ext2, if_neg]
    exact fun hc => h hc.2.1

theorem ext3_noop (a b : List α) (alo blo : ℕ) :
    ∀ (f : ℕ) (st : MatchBlock), ext3 a b alo blo f st = st := by
  intro f st
  cases f with
  | zero => rfl
  | succ f =>
    rw [ext3, if_neg]
    intro hc
    exact absurd hc.2.2.1 (by simp [bjunkNone])

theorem ext4_noop (a b : List α) (ahi bhi : ℕ) :
    ∀ (f : ℕ) (st : MatchBlock), ext4 a b ahi bhi f st = st := by
  intro f st
  cases f with
  | zero => rfl
  | succ f =>
    rw [ext4, if_neg]
    intro hc
    exact absurd hc.2.2.1 (by simp [bjunkNone])

theorem flm_empty_b (a : List α) (alo ahi blo : ℕ) :
    findLongestMatch a [] alo ahi blo 0 = ⟨alo, blo, 0⟩ := by
  unfold findLongestMatch
  rw [dictLoop_nil_b]
  dsimp only
  rw [ext1_stop (by simp)]
  dsimp only
  rw [ext2_stop (by simp)]
  dsimp only
  rw [ext3_noop]
  dsimp only
  rw [ext4_noop]

theorem rawBlocks_nil_right (t : List α) : rawBlocks t [] = [] := by
  unfold rawBlocks
  cases h : t.length with
  | zero => simp only [h, List.length_nil]; rfl
  | succ m =>
    simp only [h, List.length_nil]
    rw [blocksFuel, flm_empty_b]
    rfl

theorem rawBlocks_nil_left (t : List α) : rawBlocks [] t = [] := rfl

theorem ratioQ_nil_left {t : List α} (h : t ≠ []) : ratioQ [] t = 0 := by
  have hlen : t.length ≠ 0 := fun hc => h (List.length_eq_zero.mp hc)
  unfold ratioQ
  rw [getMatchingBlocks_sum]
  unfold matchesTotal
  rw [rawBlocks_nil_left]
  simp only [List.map_nil, List.sum_nil, List.length_nil, Nat.zero_add]
  unfold calculateRatioQ
  rw [if_pos hlen]
  simp

theorem ratioQ_nil_right {t : List α} (h : t ≠ []) : ratioQ t [] = 0 := by
  have hlen : t.length ≠ 0 := fun hc => h (List.length_eq_zero.mp hc)
  unfold ratioQ
  rw [getMatchingBlocks_sum]
  unfold matchesTotal
  rw [rawBlocks_nil_right]
  simp only [List.map_nil, List.sum_nil, List.length_nil, Nat.add_zero]
  unfold calculateRatioQ
  rw [if_pos hlen]
  simp

theorem ratioQ_nil_nil : ratioQ ([] : List α) [] = 1 := rfl

/-! ### The identity instance: the scorer gives `1` on equal sequences

On identical windows (`b = a`, `blo = alo`, `bhi = ahi`) the dictionary phase
of `find_longest_match` can only record best blocks on the main diagonal:
every chain value `k` recorded at `(i, j)` is bounded by the diagonal run
lengths at both `i` and `j`; the diagonal entry `(i, i)` attains its run
length exactly, is visited before any `j > i` (occurrence lists ascend), and
a strictly greater value is required to displace the recorded best.  The
extension loops then grow the diagonal block to the whole window (every
element matches itself), so `find_longest_match` returns the full window and
the block decomposition is a single block covering everything. -/

/-- Position `p` can participate in a chain of the identity instance: it is
listed in `b2j` for its own element (not autojunk-purged) and lies in the
window `[lo, hi)`. -/
def selfOk (a : List α) (lo hi p : ℕ) : Prop :=
  p ∈ b2j a (idx a p) ∧ lo ≤ p ∧ p < hi

instance (a : List α) (lo hi p : ℕ) : Decidable (selfOk a lo hi p) := by
  unfold selfOk; infer_instance

/-- Length of the maximal `selfOk` run ending at `p`. -/
def drun (a : List α) (lo hi : ℕ) : ℕ → ℕ
  | 0 => if selfOk a lo hi 0 then 1 else 0
  | p + 1 => if selfOk a lo hi (p + 1) then drun a lo hi p + 1 else 0

theorem drun_zero_of_not_selfOk {a : List α} {lo hi p : ℕ}
    (h : ¬ selfOk a lo hi p) : drun a lo hi p = 0 := by
  cases p <;> simp [drun, h]

theorem drun_of_selfOk {a : List α} {lo hi p : ℕ} (h : selfOk a lo hi p) :
    drun a lo hi p = (if p = 0 then 0 else drun a lo hi (p - 1)) + 1 := by
  cases p <;> simp [drun, h]

theorem drun_zero_of_lt {a : List α} {lo hi p : ℕ} (h : p < lo) :
    drun a lo hi p = 0 :=
  drun_zero_of_not_selfOk (fun hq => absurd hq.2.1 (by omega))

theorem drun_le (a : List α) (lo hi : ℕ) : ∀ p, drun a lo hi p ≤ p + 1 - lo := by
  intro p
  induction p with
  | zero =>
    by_cases h : selfOk a lo hi 0
    · have hlo : lo = 0 := by have := h.2.1; omega
      subst hlo
      rw [drun, if_pos h]
    · simp [drun, h]
  | succ q ih =>
    by_cases h : selfOk a lo hi (q + 1)
    · have hlo : lo ≤ q + 1 := h.2.1
      rw [drun, if_pos h]
      omega
    · rw [drun, if_neg h]
      omega

/-! Facts about `b2j` membership. -/

theorem b2j_mem {b : List α} {x : α} {j : ℕ} (h : j ∈ b2j b x) :
    j < b.length ∧ idx b j = x := by
  by_cases hC : 200 ≤ b.length ∧ b.length / 100 + 1 < (positions b x).length
  · rw [b2j, if_pos hC] at h
    exact absurd h (List.not_mem_nil j)
  · rw [b2j, if_neg hC] at h
    unfold positions at h
    rw [List.mem_filter, List.mem_range] at h
    exact ⟨h.1, of_decide_eq_true h.2⟩

theorem b2j_congr {b : List α} {x : α} {j : ℕ} (h : j ∈ b2j b x) :
    b2j b (idx b j) = b2j b x := by rw [(b2j_mem h).2]

theorem b2j_pairwise (b : List α) (x : α) : (b2j b x).Pairwise (· < ·) := by
  by_cases hC : 200 ≤ b.length ∧ b.length / 100 + 1 < (positions b x).length
  · rw [b2j, if_pos hC]
    exact List.Pairwise.nil
  · rw [b2j, if_neg hC]
    exact List.Pairwise.sublist (List.filter_sublist _) (List.pairwise_lt_range _)

theorem b2j_self_mem {b : List α} {i : ℕ} (hi : i < b.length)
    (hne : b2j b (idx b i) ≠ []) : i ∈ b2j b (idx b i) := by
  by_cases hC : 200 ≤ b.length ∧
      b.length / 100 + 1 < (positions b (idx b i)).length
  · rw [b2j, if_pos hC] at hne
    exact absurd rfl hne
  · rw [b2j, if_neg hC]
    unfold positions
    rw [List.mem_filter, List.mem_range]
    exact ⟨hi, by simp⟩

/-- State invariant maintained by the inner loop on the identity instance:
the fresh `newj2len` is exact on the diagonal and bounded by the diagonal
runs, and the best block stays on the diagonal, inside the window, with a
size dominating every diagonal run seen so far. -/
def InnerInv (a : List α) (lo hi i : ℕ) (r : (ℕ → ℕ) × MatchBlock) : Prop :=
  r.1 i = drun a lo hi i ∧
  (∀ q, r.1 q ≤ drun a lo hi q) ∧
  (∀ q, r.1 q ≤ drun a lo hi i) ∧
  r.2.b = r.2.a ∧ lo ≤ r.2.a ∧ r.2.a + r.2.size ≤ i + 1 ∧
  (∀ p, lo ≤ p → p ≤ i → drun a lo hi p ≤ r.2.size)

theorem innerJ_self (a : List α) (lo hi : ℕ) (hhi : hi ≤ a.length)
    (i : ℕ) (hloi : lo ≤ i) (hilt : i < hi)
    (old : ℕ → ℕ)
    (holdA : ∀ q, old q ≤ drun a lo hi q)
    (holdB : ∀ q, old q ≤ (if i = lo then 0 else drun a lo hi (i - 1)))
    (holdD : lo < i → old (i - 1) = drun a lo hi (i - 1)) :
    ∀ (S : List ℕ) (new : ℕ → ℕ) (best : MatchBlock),
      S.Pairwise (· < ·) →
      (∀ j, j ∈ S → j ∈ b2j a (idx a i)) →
      (∀ q, new q ≤ drun a lo hi q) →
      (∀ q, new q ≤ drun a lo hi i) →
      (i ∈ S ∨ (new i = drun a lo hi i ∧ drun a lo hi i ≤ best.size)) →
      best.b = best.a → lo ≤ best.a → best.a + best.size ≤ i + 1 →
      (∀ p, lo ≤ p → p < i → drun a lo hi p ≤ best.size) →
      InnerInv a lo hi i (innerJ lo hi i old S new best) := by
  intro S
  induction S with
  | nil =>
    intro new best _ _ hnewA hnewB hphi hbd hbl hbs hA4
    rcases hphi with hmem | ⟨he1, he2⟩
    · exact absurd hmem (List.not_mem_nil i)
    · refine ⟨he1, hnewA, hnewB, hbd, hbl, hbs, ?_⟩
      intro p hp1 hp2
      rcases Nat.lt_or_ge p i with hpi | hpi
      · exact hA4 p hp1 hpi
      · have hpe : p = i := by omega
        subst hpe
        exact he2
  | cons j js ih =>
    intro new best hpw hsub hnewA hnewB hphi hbd hbl hbs hA4
    have hpwt : js.Pairwise (· < ·) := hpw.of_cons
    have hgt : ∀ x ∈ js, j < x := by
      intro x hx
      exact List.rel_of_pairwise_cons hpw hx
    rw [innerJ]
    by_cases hjlo : j < lo
    · rw [if_pos hjlo]
      refine ih new best hpwt (fun x hx => hsub x (List.mem_cons_of_mem j hx))
        hnewA hnewB ?_ hbd hbl hbs hA4
      rcases hphi with hmem | hdone
      · rcases List.mem_cons.mp hmem with heq | hmem'
        · exact absurd heq (by omega)
        · exact Or.inl hmem'
      · exact Or.inr hdone
    · rw [if_neg hjlo]
      by_cases hjhi : hi ≤ j
      · rw [if_pos hjhi]
        have hnot : i ∉ j :: js := by
          intro hmem
          rcases List.mem_cons.mp hmem with heq | hmem'
          · omega
          · have := hgt i hmem'; omega
        rcases hphi with hmem | ⟨he1, he2⟩
        · exact absurd hmem hnot
        · refine ⟨he1, hnewA, hnewB, hbd, hbl, hbs, ?_⟩
          intro p hp1 hp2
          rcases Nat.lt_or_ge p i with hpi | hpi
          · exact hA4 p hp1 hpi
          · have hpe : p = i := by omega
            subst hpe
            exact he2
      · rw [if_neg hjhi]
        have hjmem : j ∈ b2j a (idx a i) := hsub j (List.mem_cons_self j js)
        obtain ⟨hjlen, hjidx⟩ := b2j_mem hjmem
        have hselfj : selfOk a lo hi j := by
          refine ⟨?_, Nat.le_of_not_lt hjlo, Nat.lt_of_not_le hjhi⟩
          rw [b2j_congr hjmem]
          exact hjmem
        have hLne : b2j a (idx a i) ≠ [] := List.ne_nil_of_mem hjmem
        have hiL : i ∈ b2j a (idx a i) :=
          b2j_self_mem (lt_of_lt_of_le hilt hhi) hLne
        have hselfi : selfOk a lo hi i := ⟨hiL, hloi, hilt⟩
        have hDi := drun_of_selfOk hselfi
        have hDj := drun_of_selfOk hselfj
        have hkDj : chainK old j ≤ drun a lo hi j := by
          unfold chainK
          rw [hDj]
          by_cases hj0 : j = 0
          · simp [hj0]
          · simp only [if_neg hj0]
            exact Nat.succ_le_succ (holdA (j - 1))
        have hBle : (if i = lo then 0 else drun a lo hi (i - 1)) + 1 ≤
            drun a lo hi i := by
          rw [hDi]
          by_cases hilo : i = lo
          · simp [hilo]
          · have h1 : lo < i := lt_of_le_of_ne hloi (Ne.symm hilo)
            have h2 : i ≠ 0 := by omega
            simp only [if_neg hilo, if_neg h2, le_refl]
        have hkDi : chainK old j ≤ drun a lo hi i := by
          unfold chainK
          refine le_trans ?_ hBle
          by_cases hj0 : j = 0
          · simp [hj0]
          · simp only [if_neg hj0]
            exact Nat.succ_le_succ (holdB (j - 1))
        rcases Nat.lt_trichotomy j i with hji | hji | hji
        · -- `j < i`: the diagonal entry recorded at iteration `j` already
          -- dominates this chain, so the best block is not displaced.
          have hkbs : chainK old j ≤ best.size :=
            le_trans hkDj (hA4 j (Nat.le_of_not_lt hjlo) hji)
          rw [bestUpd, if_neg (Nat.not_lt.mpr hkbs)]
          refine ih _ best hpwt (fun x hx => hsub x (List.mem_cons_of_mem j hx))
            ?_ ?_ ?_ hbd hbl hbs hA4
          · intro q
            by_cases hq : q = j
            · subst hq; rw [if_pos rfl]; exact hkDj
            · simp only [if_neg hq]; exact hnewA q
          · intro q
            by_cases hq : q = j
            · subst hq; rw [if_pos rfl]; exact hkDi
            · simp only [if_neg hq]; exact hnewB q
          · rcases hphi with hmem | ⟨he1, he2⟩
            · rcases List.mem_cons.mp hmem with heq | hmem'
              · exact absurd heq (by omega)
              · exact Or.inl hmem'
            · refine Or.inr ⟨?_, he2⟩
              rw [if_neg (show i ≠ j by omega)]
              exact he1
        · -- `j = i`: the diagonal entry is exact and may update the best,
          -- keeping it on the diagonal.
          subst hji
          have hkexact : chainK old j = drun a lo hi j := by
            unfold chainK
            rw [hDi]
            congr 1
            by_cases hj0 : j = 0
            · simp [hj0]
            · simp only [if_neg hj0]
              by_cases hjlo' : j = lo
              · have hb := holdB (j - 1)
                rw [if_pos hjlo'] at hb
                have hd : drun a lo hi (j - 1) = 0 :=
                  drun_zero_of_lt (by omega)
                omega
              · have hlt : lo < j := lt_of_le_of_ne hloi (Ne.symm hjlo')
                exact holdD hlt
          rw [hkexact]
          have hDle : drun a lo hi j ≤ j + 1 - lo := drun_le a lo hi j
          by_cases hupd : best.size < drun a lo hi j
          · rw [bestUpd, if_pos hupd]
            refine ih _ _ hpwt (fun x hx => hsub x (List.mem_cons_of_mem j hx))
              ?_ ?_ ?_ rfl ?_ ?_ ?_
            · intro q
              by_cases hq : q = j
              · subst hq; rw [if_pos rfl]
              · simp only [if_neg hq]; exact hnewA q
            · intro q
              by_cases hq : q = j
              · subst hq; rw [if_pos rfl]
              · simp only [if_neg hq]; exact hnewB q
            · exact Or.inr ⟨by rw [if_pos rfl], le_refl _⟩
            · show lo ≤ j + 1 - drun a lo hi j
              omega
            · show (j + 1 - drun a lo hi j) + drun a lo hi j ≤ j + 1
              omega
            · intro p hp1 hp2
              exact le_trans (hA4 p hp1 hp2) (Nat.le_of_lt hupd)
          · rw [bestUpd, if_neg hupd]
            have hDile : drun a lo hi j ≤ best.size := Nat.le_of_not_lt hupd
            refine ih _ best hpwt (fun x hx => hsub x (List.mem_cons_of_mem j hx))
              ?_ ?_ ?_ hbd hbl hbs hA4
            · intro q
              by_cases hq : q = j
              · subst hq; rw [if_pos rfl]
              · simp only [if_neg hq]; exact hnewA q
            · intro q
              by_cases hq : q = j
              · subst hq; rw [if_pos rfl]
              · simp only [if_neg hq]; exact hnewB q
            · exact Or.inr ⟨by rw [if_pos rfl], hDile⟩
        · -- `i < j`: the diagonal entry at `i` was already processed (the
          -- occurrence list ascends), so the chain cannot displace the best.
          have hnot : i ∉ j :: js := by
            intro hmem
            rcases List.mem_cons.mp hmem with heq | hmem'
            · omega
            · have := hgt i hmem'; omega
          rcases hphi with hmem | ⟨he1, he2⟩
          · exact absurd hmem hnot
          · have hkbs : chainK old j ≤ best.size := le_trans hkDi he2
            rw [bestUpd, if_neg (Nat.not_lt.mpr hkbs)]
            refine ih _ best hpwt (fun x hx => hsub x (List.mem_cons_of_mem j hx))
              ?_ ?_ ?_ hbd hbl hbs hA4
            · intro q
              by_cases hq : q = j
              · subst hq; rw [if_pos rfl]; exact hkDj
              · simp only [if_neg hq]; exact hnewA q
            · intro q
              by_cases hq : q = j
              · subst hq; rw [if_pos rfl]; exact hkDi
              · simp only [if_neg hq]; exact hnewB q
            · refine Or.inr ⟨?_, he2⟩
              rw [if_neg (show i ≠ j by omega)]
              exact he1

theorem dictLoop_self (a : List α) (lo hi : ℕ) (hhi : hi ≤ a.length) :
    ∀ (n i : ℕ), lo ≤ i → i + n = hi →
      ∀ (j2 : ℕ → ℕ) (best : MatchBlock),
        (∀ q, j2 q ≤ drun a lo hi q) →
        (∀ q, j2 q ≤ (if i = lo then 0 else drun a lo hi (i - 1))) →
        (lo < i → j2 (i - 1) = drun a lo hi (i - 1)) →
        best.b = best.a → lo ≤ best.a → best.a + best.size ≤ i →
        (∀ p, lo ≤ p → p < i → drun a lo hi p ≤ best.size) →
        (dictLoop a a lo hi i n j2 best).b = (dictLoop a a lo hi i n j2 best).a ∧
          lo ≤ (dictLoop a a lo hi i n j2 best).a ∧
          (dictLoop a a lo hi i n j2 best).a +
            (dictLoop a a lo hi i n j2 best).size ≤ hi := by
  intro n
  induction n with
  | zero =>
    intro i hloi hsum j2 best _ _ _ hbd hbl hbs _
    have : i = hi := by omega
    subst this
    exact ⟨hbd, hbl, hbs⟩
  | succ n ihn =>
    intro i hloi hsum j2 best hA hB hD hbd hbl hbs hA4
    have hilt : i < hi := by omega
    rw [dictLoop]
    by_cases hL : b2j a (idx a i) = []
    · rw [hL]
      show (dictLoop a a lo hi (i + 1) n (fun _ => 0) best).b = _ ∧ _
      have hDi0 : drun a lo hi i = 0 := by
        apply drun_zero_of_not_selfOk
        intro hself
        unfold selfOk at hself
        rw [hL] at hself
        exact absurd hself.1 (List.not_mem_nil i)
      refine ihn (i + 1) (by omega) (by omega) _ best
        (fun q => Nat.zero_le _) (fun q => Nat.zero_le _) ?_ hbd hbl (by omega) ?_
      · intro _
        simp only [Nat.add_sub_cancel]
        exact hDi0.symm
      · intro p hp1 hp2
        rcases Nat.lt_or_ge p i with hpi | hpi
        · exact hA4 p hp1 hpi
        · have hpe : p = i := by omega
          subst hpe
          rw [hDi0]
          exact Nat.zero_le _
    · have hinner := innerJ_self a lo hi hhi i hloi hilt j2 hA hB hD
        (b2j a (idx a i)) (fun _ => 0) best
        (b2j_pairwise a (idx a i)) (fun j hj => hj)
        (fun q => Nat.zero_le _) (fun q => Nat.zero_le _)
        (Or.inl (b2j_self_mem (lt_of_lt_of_le hilt hhi) hL))
        hbd hbl (by omega) hA4
      obtain ⟨h1, h2, h3, h4, h5, h6, h7⟩ := hinner
      refine ihn (i + 1) (by omega) (by omega) _ _ h2 ?_ ?_ h4 h5 h6 ?_
      · intro q
        rw [if_neg (show i + 1 ≠ lo by omega)]
        simp only [Nat.add_sub_cancel]
        exact h3 q
      · intro _
        simp only [Nat.add_sub_cancel]
        exact h1
      · intro p hp1 hp2
        exact h7 p hp1 (by omega)

theorem ext1_self (a : List α) (lo : ℕ) :
    ∀ (f x s : ℕ), lo ≤ x → x - lo ≤ f →
      ext1 a a lo lo f ⟨x, x, s⟩ = ⟨lo, lo, s + (x - lo)⟩ := by
  intro f
  induction f with
  | zero =>
    intro x s hlx hf
    have hxe : x = lo := by omega
    subst hxe
    simp [ext1]
  | succ f ihf =>
    intro x s hlx hf
    by_cases hx : lo < x
    · rw [ext1, if_pos ⟨hx, hx, rfl, rfl⟩]
      rw [ihf (x - 1) (s + 1) (by omega) (by omega)]
      simp only [MatchBlock.mk.injEq, true_and]
      omega
    · have hxe : x = lo := by omega
      subst hxe
      rw [ext1, if_neg (fun hc => hx hc.1)]
      simp

theorem ext2_self (a : List α) (hi : ℕ) :
    ∀ (f lo s : ℕ), lo + s ≤ hi → hi - (lo + s) ≤ f →
      ext2 a a hi hi f ⟨lo, lo, s⟩ = ⟨lo, lo, hi - lo⟩ := by
  intro f
  induction f with
  | zero =>
    intro lo s h1 h2
    have hse : lo + s = hi := by omega
    show (⟨lo, lo, s⟩ : MatchBlock) = ⟨lo, lo, hi - lo⟩
    simp only [MatchBlock.mk.injEq, true_and]
    omega
  | succ f ihf =>
    intro lo s h1 h2
    by_cases hs : lo + s < hi
    · rw [ext2, if_pos ⟨hs, hs, rfl, rfl⟩]
      exact ihf lo (s + 1) (by omega) (by omega)
    · rw [ext2, if_neg (fun hc => hs hc.1)]
      have hse : lo + s = hi := by omega
      simp only [MatchBlock.mk.injEq, true_and]
      omega

theorem flm_self (a : List α) (lo hi : ℕ) (hlo : lo ≤ hi) (hhi : hi ≤ a.length) :
    findLongestMatch a a lo hi lo hi = ⟨lo, lo, hi - lo⟩ := by
  have hmain := dictLoop_self a lo hi hhi (hi - lo) lo le_rfl (by omega)
    (fun _ => 0) ⟨lo, lo, 0⟩ (fun q => Nat.zero_le _) (fun q => Nat.zero_le _)
    (fun h => absurd h (lt_irrefl lo)) rfl le_rfl (by simp)
    (fun p hp1 hp2 => absurd hp2 (by omega))
  unfold findLongestMatch
  dsimp only
  generalize hg : dictLoop a a lo hi lo (hi - lo) (fun _ => 0) ⟨lo, lo, 0⟩ = b0
  rw [hg] at hmain
  obtain ⟨ba, bb, bs⟩ := b0
  obtain ⟨hdiag, hge, hsum⟩ := hmain
  dsimp only at hdiag hge hsum ⊢
  subst hdiag
  rw [ext1_self a lo bb bb bs hge (Nat.sub_le _ _)]
  dsimp only
  rw [ext2_self a hi (hi - (lo + (bs + (bb - lo)))) lo (bs + (bb - lo))
    (by omega) le_rfl]
  dsimp only
  rw [ext3_noop]
  dsimp only
  rw [ext4_noop]

theorem rawBlocks_self (t : List α) :
    rawBlocks t t = if t.length = 0 then [] else [⟨0, 0, t.length⟩] := by
  unfold rawBlocks
  cases h : t.length with
  | zero => rfl
  | succ m =>
    rw [blocksFuel, flm_self t 0 (m + 1) (by omega) (by omega)]
    simp

/-! ### Fuel adequacy

Every nonempty block returned by `findLongestMatch` lies inside the `a`-window
(`findLongestMatch_sound`), so the recursion depth of `get_matching_blocks` is
bounded by `ahi - alo` and the fuel used by `rawBlocks` is exact
(`blocksFuel_congr`). -/

/-- The best block is either still the initial `(alo, blo, 0)` or a nonempty
block inside the `a`-window bounded by `m`. -/
def BestOk (alo m : ℕ) (best : MatchBlock) : Prop :=
  (best.a = alo ∧ best.size = 0) ∨
    (alo ≤ best.a ∧ best.a + best.size ≤ m ∧ 1 ≤ best.size)

theorem BestOk_mono {alo m m' : ℕ} {best : MatchBlock} (h : m ≤ m')
    (hb : BestOk alo m best) : BestOk alo m' best := by
  rcases hb with hb | hb
  · exact Or.inl hb
  · exact Or.inr ⟨hb.1, le_trans hb.2.1 h, hb.2.2⟩

theorem innerJ_bound (blo bhi i : ℕ) (old : ℕ → ℕ) (alo c : ℕ)
    (halo : alo ≤ i) (hold : ∀ q, old q ≤ c) (hc : c ≤ i - alo) :
    ∀ (S : List ℕ) (new : ℕ → ℕ) (best : MatchBlock),
      (∀ q, new q ≤ c + 1) → BestOk alo (i + 1) best →
      (∀ q, (innerJ blo bhi i old S new best).1 q ≤ c + 1) ∧
        BestOk alo (i + 1) (innerJ blo bhi i old S new best).2 := by
  intro S
  induction S with
  | nil => intro new best hnew hbest; exact ⟨hnew, hbest⟩
  | cons j js ih =>
    intro new best hnew hbest
    rw [innerJ]
    by_cases hjlo : j < blo
    · rw [if_pos hjlo]; exact ih new best hnew hbest
    · rw [if_neg hjlo]
      by_cases hjhi : bhi ≤ j
      · rw [if_pos hjhi]; exact ⟨hnew, hbest⟩
      · rw [if_neg hjhi]
        have hk : chainK old j ≤ c + 1 := by
          unfold chainK
          by_cases hj0 : j = 0
          · simp [hj0]
          · simp only [if_neg hj0]
            exact Nat.succ_le_succ (hold (j - 1))
        refine ih _ _ ?_ ?_
        · intro q
          by_cases hq : q = j
          · subst hq; rw [if_pos rfl]; exact hk
          · rw [if_neg hq]; exact hnew q
        · unfold bestUpd
          by_cases hupd : best.size < chainK old j
          · rw [if_pos hupd]
            refine Or.inr ⟨?_, ?_, ?_⟩
            · show alo ≤ i + 1 - chainK old j
              omega
            · show (i + 1 - chainK old j) + chainK old j ≤ i + 1
              omega
            · show 1 ≤ chainK old j
              unfold chainK
              omega
          · rw [if_neg hupd]; exact hbest

theorem dictLoop_bound (a b : List α) (blo bhi alo : ℕ) :
    ∀ (n i : ℕ), alo ≤ i →
      ∀ (j2 : ℕ → ℕ) (best : MatchBlock),
        (∀ q, j2 q ≤ i - alo) → BestOk alo i best →
        BestOk alo (i + n) (dictLoop a b blo bhi i n j2 best) := by
  intro n
  induction n with
  | zero => intro i _ j2 best _ hbest; exact hbest
  | succ n ihn =>
    intro i hloi j2 best hj2 hbest
    rw [dictLoop]
    have hstep := innerJ_bound blo bhi i j2 alo (i - alo) hloi hj2 le_rfl
      (b2j b (idx a i)) (fun _ => 0) best (fun q => Nat.zero_le _)
      (BestOk_mono (Nat.le_succ i) hbest)
    have hres := ihn (i + 1) (by omega)
      (innerJ blo bhi i j2 (b2j b (idx a i)) (fun _ => 0) best).1
      (innerJ blo bhi i j2 (b2j b (idx a i)) (fun _ => 0) best).2
      (fun q => by have h1 := hstep.1 q; omega) hstep.2
    have hre : i + 1 + n = i + (n + 1) := by omega
    rw [hre] at hres
    exact hres

theorem ext1_bound (a b : List α) (alo blo : ℕ) :
    ∀ (f : ℕ) (st : MatchBlock), alo ≤ st.a →
      alo ≤ (ext1 a b alo blo f st).a ∧
        (ext1 a b alo blo f st).a + (ext1 a b alo blo f st).size
          = st.a + st.size := by
  intro f
  induction f with
  | zero => intro st h; exact ⟨h, rfl⟩
  | succ f ihf =>
    intro st h
    rw [ext1]
    by_cases hcond : alo < st.a ∧ blo < st.b ∧
        bjunkNone (idx b (st.b - 1)) = false ∧ idx a (st.a - 1) = idx b (st.b - 1)
    · rw [if_pos hcond]
      have hlt := hcond.1
      obtain ⟨ha, hsum⟩ :=
        ihf ⟨st.a - 1, st.b - 1, st.size + 1⟩ (show alo ≤ st.a - 1 by omega)
      refine ⟨ha, ?_⟩
      rw [hsum]
      show (st.a - 1) + (st.size + 1) = st.a + st.size
      omega
    · rw [if_neg hcond]; exact ⟨h, rfl⟩

theorem ext2_bound (a b : List α) (ahi bhi : ℕ) :
    ∀ (f : ℕ) (st : MatchBlock),
      (ext2 a b ahi bhi f st).a = st.a ∧
        (ext2 a b ahi bhi f st).a + (ext2 a b ahi bhi f st).size
          ≤ max (st.a + st.size) ahi := by
  intro f
  induction f with
  | zero => intro st; exact ⟨rfl, le_max_left _ _⟩
  | succ f ihf =>
    intro st
    rw [ext2]
    by_cases hcond : st.a + st.size < ahi ∧ st.b + st.size < bhi ∧
        bjunkNone (idx b (st.b + st.size)) = false ∧
        idx a (st.a + st.size) = idx b (st.b + st.size)
    · rw [if_pos hcond]
      have := ihf ⟨st.a, st.b, st.size + 1⟩
      refine ⟨this.1, ?_⟩
      refine le_trans this.2 ?_
      have := hcond.1
      simp only [max_le_iff, le_max_iff]
      omega
    · rw [if_neg hcond]; exact ⟨rfl, le_max_left _ _⟩

theorem ext2_stopA {a b : List α} {ahi bhi : ℕ} {st : MatchBlock}
    (h : ¬ st.a + st.size < ahi) : ∀ f, ext2 a b ahi bhi f st = st := by
  intro f
  cases f with
  | zero => rfl
  | succ f =>
    rw [ext2, if_neg]
    exact fun hc => h hc.1

theorem findLongestMatch_sound (a b : List α) (alo ahi blo bhi : ℕ)
    (h : (findLongestMatch a b alo ahi blo bhi).size ≠ 0) :
    alo ≤ (findLongestMatch a b alo ahi blo bhi).a ∧
      (findLongestMatch a b alo ahi blo bhi).a +
        (findLongestMatch a b alo ahi blo bhi).size ≤ ahi := by
  have hb0 := dictLoop_bound a b blo bhi alo (ahi - alo) alo le_rfl
    (fun _ => 0) ⟨alo, blo, 0⟩ (fun q => Nat.zero_le _) (Or.inl ⟨rfl, rfl⟩)
  rw [findLongestMatch] at h ⊢
  generalize hg : dictLoop a b blo bhi alo (ahi - alo) (fun _ => 0)
    ⟨alo, blo, 0⟩ = b0 at h hb0 ⊢
  rw [ext3_noop, ext4_noop] at h ⊢
  rcases le_or_lt ahi alo with hle | hlt
  · -- Degenerate window: the initial best survives untouched with size 0.
    have hz : ahi - alo = 0 := by omega
    exfalso
    rcases hb0 with hinit | hgood
    · have ha0 : alo ≤ b0.a := le_of_eq hinit.1.symm
      obtain ⟨h1a, h1sum⟩ := ext1_bound a b alo blo b0.a b0 ha0
      generalize hg1 : ext1 a b alo blo b0.a b0 = b1 at h1a h1sum h
      rw [ext2_stopA (by omega)] at h
      omega
    · omega
  · rcases hb0 with hinit | hgood
    · have ha0 : alo ≤ b0.a := le_of_eq hinit.1.symm
      obtain ⟨h1a, h1sum⟩ := ext1_bound a b alo blo b0.a b0 ha0
      generalize hg1 : ext1 a b alo blo b0.a b0 = b1 at h1a h1sum h ⊢
      obtain ⟨h2a, h2sum⟩ := ext2_bound a b ahi bhi (ahi - (b1.a + b1.size)) b1
      constructor
      · rw [h2a]; exact h1a
      · refine le_trans h2sum ?_
        simp only [max_le_iff]
        omega
    · obtain ⟨hga, hgsum, hgsz⟩ := hgood
      have hsum' : b0.a + b0.size ≤ ahi := by omega
      obtain ⟨h1a, h1sum⟩ := ext1_bound a b alo blo b0.a b0 hga
      generalize hg1 : ext1 a b alo blo b0.a b0 = b1 at h1a h1sum h ⊢
      obtain ⟨h2a, h2sum⟩ := ext2_bound a b ahi bhi (ahi - (b1.a + b1.size)) b1
      constructor
      · rw [h2a]; exact h1a
      · refine le_trans h2sum ?_
        simp only [max_le_iff]
        omega

theorem blocksFuel_congr (a b : List α) :
    ∀ (f f' alo ahi blo bhi : ℕ), ahi - alo ≤ f → ahi - alo ≤ f' →
      blocksFuel a b f alo ahi blo bhi = blocksFuel a b f' alo ahi blo bhi := by
  intro f
  induction f with
  | zero =>
    intro f' alo ahi blo bhi hf hf'
    cases f' with
    | zero => rfl
    | succ g =>
      have hz : (findLongestMatch a b alo ahi blo bhi).size = 0 := by
        by_contra hne
        have := findLongestMatch_sound a b alo ahi blo bhi hne
        omega
      rw [blocksFuel, blocksFuel]
      rw [if_pos hz]
  | succ g ihg =>
    intro f' alo ahi blo bhi hf hf'
    cases f' with
    | zero =>
      have hz : (findLongestMatch a b alo ahi blo bhi).size = 0 := by
        by_contra hne
        have := findLongestMatch_sound a b alo ahi blo bhi hne
        omega
      rw [blocksFuel, blocksFuel]
      rw [if_pos hz]
    | succ g' =>
      rw [blocksFuel, blocksFuel]
      by_cases hz : (findLongestMatch a b alo ahi blo bhi).size = 0
      · rw [if_pos hz, if_pos hz]
      · rw [if_neg hz, if_neg hz]
        have hsound := findLongestMatch_sound a b alo ahi blo bhi hz
        congr 1
        · by_cases hguard : alo < (findLongestMatch a b alo ahi blo bhi).a ∧
              blo < (findLongestMatch a b alo ahi blo bhi).b
          · rw [if_pos hguard, if_pos hguard]
            exact ihg g' alo _ blo _ (by omega) (by omega)
          · rw [if_neg hguard, if_neg hguard]
        · congr 1
          by_cases hguard : (findLongestMatch a b alo ahi blo bhi).a +
                (findLongestMatch a b alo ahi blo bhi).size < ahi ∧
              (findLongestMatch a b alo ahi blo bhi).b +
                (findLongestMatch a b alo ahi blo bhi).size < bhi
          · rw [if_pos hguard, if_pos hguard]
            exact ihg g' _ ahi _ bhi (by omega) (by omega)
          · rw [if_neg hguard, if_neg hguard]

theorem ratioQ_self (t : List α) : ratioQ t t = 1 := by
  by_cases h0 : t.length = 0
  · have ht : t = [] := List.length_eq_zero.mp h0
    subst ht
    exact ratioQ_nil_nil
  · unfold ratioQ
    rw [getMatchingBlocks_sum]
    unfold matchesTotal
    rw [rawBlocks_self, if_neg h0]
    simp only [List.map_cons, List.map_nil, List.sum_cons, List.sum_nil,
      Nat.add_zero]
    unfold calculateRatioQ
    rw [if_pos (by omega), Rat.divInt_eq_div]
    push_cast
    rw [show ((t.length : ℚ) + t.length) = 2 * t.length by ring]
    have hne : (2 * (t.length : ℚ)) ≠ 0 := by
      have : (t.length : ℚ) ≠ 0 := Nat.cast_ne_zero.mpr h0
      positivity
    exact div_self hne

/-! ### The handler-level helper lemmas -/

theorem pdfExtract_eq (pages : List String) :
    pdfExtract pages =
      (pages.flatMap pySplitlines).filter (fun l => l.toList.contains '\\') := by
  unfold pdfExtract
  suffices h : ∀ acc : List String,
      pages.foldl
          (fun acc text =>
            acc ++ (pySplitlines text).filter (fun l => l.toList.contains '\\')) acc
        = acc ++ (pages.flatMap pySplitlines).filter
            (fun l => l.toList.contains '\\') by
    simpa using h []
  induction pages with
  | nil => intro acc; simp
  | cons pg rest ih =>
    intro acc
    simp only [List.foldl_cons, List.flatMap_cons, List.filter_append, ih,
      List.append_assoc]

/-! ## The claims -/

/-- C1: the claim says every parse failure of `latex1` — syntax-invalid
(`LaTeXParsingError`) as well as value-invalid (`ValueError`) — yields status
409 with the message tagged `"latex1: ..."`.  In the code,
`except ValueError or LaTeXParsingError` catches only `ValueError` (the
clause expression evaluates to `ValueError`), and sympy's `LaTeXParsingError`
derives directly from `Exception`, so a syntax-invalid `latex1` (e.g. a LaTeX
string with an unterminated group) falls through to the outer
`except Exception` and produces status 500 with the *untagged* message — the
first conjunct evaluates the handler there.  The second conjunct shows the
fail-fast half of the claim does hold (the response is unchanged under any
behaviour of the pipeline on `latex2`, which is never parsed), and the third
shows the value-invalid branch (`ValueError`) behaves as claimed. -/
theorem C1_syntax_failure_gives_untagged_500 :
    (comparePost (some [("latex1", "\\badfrac"), ("latex2", "x")])
        (fun s => if s = "\\badfrac" then .parsingError "mismatched group"
                  else .ok ['x'])
      = (500, .error "mismatched group")) ∧
    (comparePost (some [("latex1", "\\badfrac"), ("latex2", "x")])
        (fun s => if s = "\\badfrac" then .parsingError "mismatched group"
                  else .ok ['x'])
      = comparePost (some [("latex1", "\\badfrac"), ("latex2", "x")])
          (fun s => if s = "\\badfrac" then .parsingError "mismatched group"
                    else .parsingError "never reached")) ∧
    (comparePost (some [("latex1", "\\badfrac"), ("latex2", "x")])
        (fun s => if s = "\\badfrac" then .valueError "bad literal"
                  else .ok ['x'])
      = (409, .error ("latex1: " ++ "bad literal"))) := by decide

/-- C2: `compare(x, x)` for any LaTeX string `x` accepted by the pipeline
(the oracle returns some token string `t` for `x`) responds 200 with
similarity `"100.00%"`: the scorer's ratio of a canonical token sequence
against itself is `1`, despite autojunk (`ratioQ_self`). -/
theorem C2_compare_idempotent (x : String) (p : String → PipeResult)
    (t : List Char) (h : p x = .ok t) :
    comparePost (some [("latex1", x), ("latex2", x)]) p
      = (200, .similarity "100.00%") := by
  have hfmt : pyFormatPct (1 : ℚ) = "100.00%" := by decide
  unfold comparePost
  dsimp only
  rw [if_neg (by simp)]
  rw [show List.lookup "latex1" [("latex1", x), ("latex2", x)] = some x from rfl,
    show List.lookup "latex2" [("latex1", x), ("latex2", x)] = some x from rfl]
  dsimp only
  rw [h]
  dsimp only
  rw [ratioQ_self, hfmt]

/-- C2 witness: the theorem applied at `x = "x"` with a pipeline mapping
everything to the token string `"x"`. -/
theorem C2_witness :
    comparePost (some [("latex1", "x"), ("latex2", "x")]) (fun _ => .ok ['x'])
      = (200, .similarity "100.00%") :=
  C2_compare_idempotent "x" (fun _ => .ok ['x']) ['x'] rfl

/-- C3 counterexample: `compare(a, b)` and `compare(b, a)` differ on a
concrete pair of parseable inputs whose canonical forms are `"ab"` and
`"bacb"`: the two orders give `66.67%` and `33.33%`. -/
theorem C3_counterexample :
    comparePost (some [("latex1", "a"), ("latex2", "b")])
        (fun s => if s = "a" then .ok ['a', 'b'] else .ok ['b', 'a', 'c', 'b'])
      ≠ comparePost (some [("latex1", "b"), ("latex2", "a")])
        (fun s => if s = "a" then .ok ['a', 'b'] else .ok ['b', 'a', 'c', 'b']) := by
  decide

/-- C3 (amended): the scorer's ratio is *not* symmetric in its two sequence
arguments; there exist canonical token sequences on which the two orders give
different scores (here `"aba"`/`"bca"`: `1/3` against `2/3`). -/
theorem C3_amended_not_symmetric :
    ∃ u v : List Char, ratioQ u v ≠ ratioQ v u :=
  ⟨['a', 'b', 'a'], ['b', 'c', 'a'], by decide⟩

/-- C4: on any pair of token sequences that is not empty-empty, the scorer
returns exactly `2 * M / (len a + len b)`, where `M` (`matchesTotal`) is the
total length of the matching blocks found by the greedy
longest-matching-block recursion on the unmatched remainders (ties broken by
the leftmost-earliest match inside `findLongestMatch`); sorting, collapsing
adjacent blocks and the size-0 sentinel inside `get_matching_blocks` do not
change the total.  Determinism is immediate: the embedded scorer is a
function of the two sequences. -/
theorem C4_ratio_formula (a b : List α) (h : a.length + b.length ≠ 0) :
    ratioQ a b = 2 * (matchesTotal a b : ℚ) / ((a.length + b.length : ℕ) : ℚ) := by
  unfold ratioQ
  rw [getMatchingBlocks_sum]
  exact calculateRatioQ_eq_div h

/-- C4 witness: the formula evaluated at the sequences `"a"` and `"ab"`. -/
theorem C4_witness :
    ratioQ ['a'] ['a', 'b'] =
      2 * (matchesTotal ['a'] ['a', 'b'] : ℚ) /
        (((['a'] : List Char).length + (['a', 'b'] : List Char).length : ℕ) : ℚ) :=
  C4_ratio_formula ['a'] ['a', 'b'] (by decide)

/-- C5: two empty canonical token sequences score `1.0` (reported
`"100.00%"`); if exactly one is empty the score is `0.0` (reported
`"0.00%"`). -/
theorem C5_empty_sequences (t : List α) :
    ratioQ ([] : List α) [] = 1 ∧
      pyFormatPct (ratioQ ([] : List α) []) = "100.00%" ∧
      (t ≠ [] →
        ratioQ [] t = 0 ∧ ratioQ t [] = 0 ∧
          pyFormatPct (ratioQ [] t) = "0.00%" ∧
          pyFormatPct (ratioQ t []) = "0.00%") := by
  refine ⟨ratioQ_nil_nil, ?_, fun h => ⟨ratioQ_nil_left h, ratioQ_nil_right h,
    ?_, ?_⟩⟩
  · rw [ratioQ_nil_nil]; decide
  · rw [ratioQ_nil_left h]; decide
  · rw [ratioQ_nil_right h]; decide

/-- C5 witness: the one-empty cases at the token sequence `"x"` and the
empty-empty case, hypotheses discharged at the concrete input. -/
theorem C5_witness :
    ratioQ ([] : List Char) [] = 1 ∧
      ratioQ ([] : List Char) ['x'] = 0 ∧ ratioQ (['x'] : List Char) [] = 0 :=
  ⟨(C5_empty_sequences (['x'] : List Char)).1,
    ((C5_empty_sequences (['x'] : List Char)).2.2 (by decide)).1,
    ((C5_empty_sequences (['x'] : List Char)).2.2 (by decide)).2.1⟩

/-- C6 counterexample: `latex2` present but *empty* is not rejected by the
validation step: the handler's status is 500 (not 400) when the pipeline
rejects the empty string, and the response depends on the pipeline — i.e.
the parser *is* invoked on the empty value, contradicting the claim that
emptiness fails fast with 400 before any parser runs. -/
theorem C6_counterexample :
    (comparePost (some [("latex1", "x"), ("latex2", "")])
        (fun s => if s = "" then .parsingError "empty input" else .ok ['x'])).1
        = 500 ∧
      comparePost (some [("latex1", "x"), ("latex2", "")])
          (fun s => if s = "" then .parsingError "empty input" else .ok ['x'])
        ≠ comparePost (some [("latex1", "x"), ("latex2", "")])
            (fun _ => .ok ['x']) := by
  decide

/-- C6 (amended): the handler validates only *presence*: when the JSON body
is missing/falsy or either key is absent, it answers 400 with the error body
and never consults the pipeline (the response is the same under every
pipeline).  Empty-string values are not rejected by validation and flow into
the parser. -/
theorem C6_amended_presence_validation (body : Option (List (String × String)))
    (p q : String → PipeResult)
    (h : body = none ∨ body = some [] ∨
      ∃ d, body = some d ∧
        (d.lookup "latex1" = none ∨ d.lookup "latex2" = none)) :
    comparePost body p = (400, .error "Missing LaTeX strings") ∧
      comparePost body p = comparePost body q := by
  rcases h with h | h | ⟨d, hd, hkey⟩
  · subst h; exact ⟨rfl, rfl⟩
  · subst h; exact ⟨rfl, rfl⟩
  · subst hd
    by_cases hnil : d = []
    · subst hnil; exact ⟨rfl, rfl⟩
    · have hgen : ∀ r : String → PipeResult,
          comparePost (some d) r = (400, .error "Missing LaTeX strings") := by
        intro r
        unfold comparePost
        dsimp only
        rw [if_neg hnil]
        rcases hkey with hk | hk
        · simp only [hk]
        · simp only [hk]
          cases hl1 : d.lookup "latex1" <;> rfl
      exact ⟨hgen p, (hgen p).trans (hgen q).symm⟩

/-- C6 witness: a body with `latex1` only, under two different pipelines. -/
theorem C6_witness :
    comparePost (some [("latex1", "x")]) (fun _ => .ok ['x'])
        = (400, .error "Missing LaTeX strings") ∧
      comparePost (some [("latex1", "x")]) (fun _ => .ok ['x'])
        = comparePost (some [("latex1", "x")]) (fun _ => .parsingError "m") :=
  C6_amended_presence_validation (some [("latex1", "x")]) (fun _ => .ok ['x'])
    (fun _ => .parsingError "m") (Or.inr (Or.inr ⟨_, rfl, Or.inr (by decide)⟩))

/-- C7: on every successful extraction, `/pdf2latex` returns exactly the
extracted text lines that contain a backslash, concatenated over the pages in
their original order, with no transformation applied to any line (the
handler's accumulating loop equals `filter ("\\" in line)` over the
concatenation of all pages' `splitlines()`), and the temporary file is gone. -/
theorem C7_pdf_extraction (pages : List String) :
    pdfPost true (.ok ()) (.ok pages) =
      ((200, .formulas ((pages.flatMap pySplitlines).filter
        (fun l => l.toList.contains '\\'))), false) := by
  show ((200, Body.formulas (pdfExtract pages)), false) = _
  rw [pdfExtract_eq]

/-- C8: the claim states the spec's scoped-acquisition discipline — the
temporary file is removed before the handler returns on *every* exit path.
The code honours it on every branch that follows a successful `file.save`,
in both handlers (first two conjuncts, universally over the remaining
outcomes; with no file provided nothing is created).  But `file.save` itself
runs after `NamedTemporaryFile(delete=False)` has created the file and
outside every `try`, and neither handler has a `try/finally`: if the save
raises, the handler exits by the propagating exception with the temporary
file still on disk — the last two conjuncts evaluate that exit path, on
which the claim fails. -/
theorem C8_save_exception_leaks_temp_file :
    (∀ (file : Bool) (extract : Except String (List String)),
      (pdfPost file (.ok ()) extract).2 = false) ∧
      (∀ (file : Bool) (ocr : Except String String) (p : String → PipeResult),
        (pixPost file (.ok ()) ocr p).2 = false) ∧
      (pdfPost true (.error "disk full") (.ok [])).2 = true ∧
      (pixPost true (.error "disk full") (.ok "x") (fun _ => .ok ['x'])).2
        = true := by
  refine ⟨?_, ?_, rfl, rfl⟩
  · intro file extract
    cases file <;> cases extract <;> rfl
  · intro file ocr p
    cases file with
    | false => rfl
    | true =>
      cases ocr with
      | error m => rfl
      | ok f =>
        unfold pixPost
        rcases hpf : p f <;> simp [hpf]

/-- C9: in `/pix2tex`, if the OCR string fails the validation parse (any
exception kind — the handler catches `Exception`), the response is the
distinct 409 error naming the string, never a silent success; if it parses,
the response is 200 with the single-element list holding the raw OCR string,
and the parsed value is not part of the response (the right-hand sides do
not mention the token string `t`). -/
theorem C9_pix_validation (f m : String) (t : List Char)
    (p : String → PipeResult) :
    ((p f = .valueError m ∨ p f = .parsingError m ∨ p f = .otherError m) →
      pixPost true (.ok ()) (.ok f) p =
        ((409, .error ("couldn\x27t parse the string " ++ f ++ ", " ++ m)),
          false)) ∧
      (p f = .ok t →
        pixPost true (.ok ()) (.ok f) p = ((200, .formulas [f]), false)) := by
  constructor
  · rintro (h | h | h) <;> simp [pixPost, h]
  · intro h
    simp [pixPost, h]

/-- C9 witness: one failing and one succeeding pipeline at the OCR string
`"x"`, hypotheses discharged concretely. -/
theorem C9_witness :
    pixPost true (.ok ()) (.ok "x") (fun _ => .parsingError "bad")
        = ((409, .error ("couldn\x27t parse the string " ++ "x" ++ ", " ++ "bad")),
            false) ∧
      pixPost true (.ok ()) (.ok "x") (fun _ => .ok ['x'])
        = ((200, .formulas ["x"]), false) :=
  ⟨(C9_pix_validation "x" "bad" ['x'] (fun _ => .parsingError "bad")).1
      (Or.inr (Or.inl rfl)),
    (C9_pix_validation "x" "bad" ['x'] (fun _ => .ok ['x'])).2 rfl⟩

/-- C10: every GET of `/operations` returns the same fixed list of exactly
15 operation names, in this order, independent of any input or prior
request. -/
theorem C10_operations_constant (u v : Unit) :
    operationsGet u = operationsGet v ∧
      ∃ ops : List String,
        operationsGet u = (200, .latexOperations ops) ∧
          ops = ["frac", "+", "-", "*", "/", "^", "_", "sqrt", "sum", "int",
                 "left", "right", "cdot", "times", "log"] ∧
          ops.length = 15 :=
  ⟨rfl, _, rfl, rfl, rfl⟩

end LatexCmp
